import Mathlib

/-!
Verification of the ACL generator normalization core (`lib/aclgenerator.py`).

The Python source is shallowly embedded: every operation becomes a pure
Lean function over explicit data, exceptions become `Except` values, and
the deep-copy discipline of `FixHighPorts` is made visible by returning
the post-call contents of both the original term object and the copy
(when one is allocated) together with a tag saying which object the
function returns.

Two pieces of data used by the source live in the external `policy`
module (not part of the sources verified here): the per-address-family
ICMP type table (abstracted as a parameter below) and the term method
`CollapsePortList` (modelled from the spec's collapsing rule).
-/

namespace Capirca

/-- The error classes of `aclgenerator.py`, with the structured values each
raise site interpolates into its message. -/
inductive AclError where
  | unsupportedAF (termName : String)
  | unsupportedFilter (termName : String)
  | unsupportedFilterError (termName : String) (offending : List String)
  | unknownIcmpTypeError (icmptype : String) (termName : String)
  | mismatchIcmpInetError (termName : String)
  | establishedError (unstateful : List String) (termName : String)
  | termNameTooLongError (newName : String) (origName : String)
      (limit : Nat) (newLen : Nat)
deriving DecidableEq

/-- An address-family argument: in Python it is either an integer (4, 6)
or a string ("inet", "inet6", "bridge"). -/
inductive AFVal where
  | num (n : Nat)
  | name (s : String)
deriving DecidableEq

/-- `Term.AF_MAP`. -/
def AF_MAP : List (String × Nat) := [("inet", 4), ("inet6", 6), ("bridge", 4)]

/-- The key set of `Term.AF_MAP_BY_NUMBER` (the flipped dictionary): the
distinct numeric values of `AF_MAP`.  Only key membership of the flipped
dictionary is ever consulted by the source. -/
def AF_NUMBERS : List Nat := (AF_MAP.map Prod.snd).eraseDups

/-- `Term.NormalizeAddressFamily`.  An integer argument can only be a key
of `AF_MAP_BY_NUMBER`; a string argument can only be a key of `AF_MAP`. -/
def NormalizeAddressFamily (termName : String) (af : AFVal) :
    Except AclError Nat :=
  match af with
  | .num n =>
    if AF_NUMBERS.contains n then .ok n
    else .error (.unsupportedAF termName)
  | .name s =>
    match AF_MAP.lookup s with
    | some n => .ok n
    | none => .error (.unsupportedAF termName)

/-- The validation loop of `Term.NormalizeIcmpTypes` over the icmp type
names: the first name with no entry in the table for the resolved address
family raises; otherwise all names are resolved to their codes, in
order.  `table` abstracts `policy.Term.ICMP_TYPE` (external data). -/
def lookupIcmpCodes (table : Nat → String → Option Nat) (termName : String)
    (afn : Nat) : List String → Except AclError (List Nat)
  | [] => .ok []
  | t :: ts =>
    match table afn t with
    | none => .error (.unknownIcmpTypeError t termName)
    | some c =>
      match lookupIcmpCodes table termName afn ts with
      | .ok cs => .ok (c :: cs)
      | .error e => .error e

/-- `Term.NormalizeIcmpTypes`.  The Python function returns `['']` for an
empty input and a sorted list of numeric codes otherwise; the sentinel
`''` is modelled as `none` and a code `c` as `some c`. -/
def NormalizeIcmpTypes (table : Nat → String → Option Nat) (termName : String)
    (icmp_types : List String) (protocols : List String) (af : AFVal) :
    Except AclError (List (Option Nat)) :=
  if icmp_types.isEmpty then .ok [none]
  else if protocols ≠ ["icmp"] ∧ protocols ≠ ["icmpv6"] then
    .error (.unsupportedFilterError termName [])
  else
    match NormalizeAddressFamily termName af with
    | .error e => .error e
    | .ok afn =>
      if (afn ≠ 4 ∧ protocols = ["icmp"]) ∨ (afn ≠ 6 ∧ protocols = ["icmpv6"]) then
        .error (.mismatchIcmpInetError termName)
      else
        match lookupIcmpCodes table termName afn icmp_types with
        | .error e => .error e
        | .ok cs => .ok ((cs.insertionSort (· ≤ ·)).map some)

/-! ### Port collapsing (modelled from the spec)

The source delegates to `mod.CollapsePortList`, a method of the external
`policy.Term` object, so it is modelled here from the spec's collapsing
rule: treat the port list as closed integer intervals, sort by lower
bound, and merge any interval whose lower bound is at most the previous
interval's upper bound plus one into the previous interval, extending its
upper bound to the maximum of the two. -/

/-- Ordering of port intervals by lower bound (the spec's sort key). -/
def portLowerLe (a b : Nat × Nat) : Prop := a.1 ≤ b.1

instance : DecidableRel portLowerLe :=
  fun a b => inferInstanceAs (Decidable (a.1 ≤ b.1))

instance : IsTotal (Nat × Nat) portLowerLe :=
  ⟨fun a b => Nat.le_total a.1 b.1⟩

instance : IsTrans (Nat × Nat) portLowerLe :=
  ⟨fun _ _ _ h1 h2 => Nat.le_trans h1 h2⟩

/-- Modelled from the spec: the merging pass of the collapsing rule over a
list already sorted by lower bound, carrying the interval currently being
extended. -/
def mergeRun (cur : Nat × Nat) : List (Nat × Nat) → List (Nat × Nat)
  | [] => [cur]
  | q :: rest =>
    if q.1 ≤ cur.2 + 1 then mergeRun (cur.1, max cur.2 q.2) rest
    else cur :: mergeRun q rest

/-- Modelled from the spec: `policy.Term.CollapsePortList` — sort the
intervals by lower bound, then merge overlapping or adjacent intervals. -/
def CollapsePortList (ports : List (Nat × Nat)) : List (Nat × Nat) :=
  match ports.insertionSort portLowerLe with
  | [] => []
  | p :: rest => mergeRun p rest

/-- `n` lies in one of the closed intervals of `l`. -/
def covered (l : List (Nat × Nat)) (n : Nat) : Prop :=
  ∃ p ∈ l, p.1 ≤ n ∧ n ≤ p.2

instance (l : List (Nat × Nat)) (n : Nat) : Decidable (covered l n) :=
  inferInstanceAs (Decidable (∃ p ∈ l, p.1 ≤ n ∧ n ≤ p.2))

/-- A list of intervals in the collapsed normal form the spec describes:
every interval is nonempty, and consecutive intervals are disjoint and
non-adjacent (there is a gap of at least one integer), which also makes
the list sorted. -/
def Canonical (l : List (Nat × Nat)) : Prop :=
  (∀ p ∈ l, p.1 ≤ p.2) ∧ l.Chain' (fun p q => p.2 + 1 < q.1)

instance (l : List (Nat × Nat)) : Decidable (Canonical l) :=
  inferInstanceAs (Decidable (_ ∧ _))

/-! ### The Port/Protocol fixer (`ACLGenerator.FixHighPorts`) -/

/-- `ACLGenerator._DEFAULT_PROTOCOL`. -/
def DEFAULT_PROTOCOL : String := "ip"

/-- `ACLGenerator._SUPPORTED_AF`. -/
def SUPPORTED_AF : List String := ["inet", "inet6"]

/-- `ACLGenerator._FILTER_BLACKLIST` (empty in the base class). -/
def FILTER_BLACKLIST : List (String × List String) := []

/-- `af in self._SUPPORTED_AF`: an integer is never a member of a set of
strings, so only the symbolic names can pass this test. -/
def afInSupported : AFVal → Bool
  | .name s => SUPPORTED_AF.contains s
  | .num _ => false

/-- The blacklist test of `FixHighPorts`: the address family is a key of
`_FILTER_BLACKLIST` and its protocol set intersects the term's. -/
def afBlacklistHit (af : AFVal) (protocols : List String) : Bool :=
  match af with
  | .name s =>
    match FILTER_BLACKLIST.lookup s with
    | some blocked => protocols.any (fun p => blocked.contains p)
    | none => false
  | .num _ => false

/-- The term fields `FixHighPorts` reads and writes. -/
structure PortTerm where
  name : String
  protocol : List String
  option : List String
  destination_port : List (Nat × Nat)
deriving DecidableEq

/-- `set(term.protocol)` or the default protocol when none is declared. -/
def effectiveProtocols (term : PortTerm) : List String :=
  if term.protocol.isEmpty then [DEFAULT_PROTOCOL] else term.protocol

/-- `protocols.difference(set(('tcp', 'udp')))`, as a duplicate-free list. -/
def unstatefulProtocols (term : PortTerm) : List String :=
  ((effectiveProtocols term).filter
    (fun p => !(p == "tcp" || p == "udp"))).eraseDups

/-- Which heap object `FixHighPorts` returns: the caller's term object, or
the deep copy it allocated. -/
inductive ObjRef where
  | orig
  | copy
deriving DecidableEq

/-- The observable outcome of a successful `FixHighPorts` call: the
contents of the original term object after the call, the contents of the
deep copy when one was allocated, and which of the two is returned. -/
structure FixResult where
  origAfter : PortTerm
  copyAfter : Option PortTerm
  ret : ObjRef
deriving DecidableEq

/-- `ACLGenerator.FixHighPorts`.  `mod` starts as an alias of `term`; the
only mutations in the source happen after `mod` is rebound to
`copy.deepcopy(term)`, which the result record makes explicit: the
`origAfter` slot receives no writes on any path. -/
def FixHighPorts (term : PortTerm) (af : AFVal)
    (all_protocols_stateful : Bool) : Except AclError FixResult :=
  let protocols := effectiveProtocols term
  if ¬ afInSupported af then .error (.unsupportedAF term.name)
  else if afBlacklistHit af protocols then .error (.unsupportedFilter term.name)
  else
    match term.option.find? (fun opt => "established".data.isPrefixOf opt.data) with
    | none => .ok ⟨term, none, .orig⟩
    | some _ =>
      let unstateful := unstatefulProtocols term
      if unstateful.isEmpty then
        let mod := term
        let mod := { mod with
          destination_port := mod.destination_port ++ [(1024, 65535)] }
        let mod := { mod with
          destination_port := CollapsePortList mod.destination_port }
        .ok ⟨term, some mod, .copy⟩
      else if ¬ all_protocols_stateful then
        .error (.establishedError unstateful term.name)
      else .ok ⟨term, none, .orig⟩

/-! ### Keyword validation (`ACLGenerator.__init__`) -/

/-- `ACLGenerator._REQUIRED_KEYWORDS`. -/
def REQUIRED_KEYWORDS : List String :=
  ["action", "comment", "destination_address", "destination_address_exclude",
   "destination_port", "icmp_type", "name", "option", "protocol", "platform",
   "platform_exclude", "source_address", "source_address_exclude",
   "source_port", "translated", "verbatim"]

/-- `ACLGenerator._OPTIONAL_SUPPORTED_KEYWORDS` (empty in the base class). -/
def OPTIONAL_SUPPORTED_KEYWORDS : List String := []

/-- `self._VALID_KEYWORDS`: the union computed in `__init__`. -/
def VALID_KEYWORDS : List String :=
  REQUIRED_KEYWORDS ++ OPTIONAL_SUPPORTED_KEYWORDS

/-- A policy term as the keyword validator sees it: the two platform
gating lists, and `term.__dict__` as attribute names paired with the
truthiness of their values. -/
structure PolTerm where
  name : String
  platform : List String
  platform_exclude : List String
  attrs : List (String × Bool)
deriving DecidableEq

/-- The two `continue` tests of the validation loop: a non-empty platform
allow-list that excludes the target, or a platform-exclude list that
includes it. -/
def termSkipped (platform : String) (t : PolTerm) : Bool :=
  (!t.platform.isEmpty && !t.platform.contains platform) ||
    (!t.platform_exclude.isEmpty && t.platform_exclude.contains platform)

/-- The `err` list accumulated for one term: every populated attribute
that is not a valid keyword and does not carry the reserved internal
prefix. -/
def offendingFields (valid : List String) (t : PolTerm) : List String :=
  (t.attrs.filter (fun av =>
    av.2 && !valid.contains av.1 && !"flatten".data.isPrefixOf av.1.data)).map
    Prod.fst

/-- The per-header term loop of `__init__`: skip gated terms, and raise on
the first remaining term with a non-empty offending list, reporting that
whole list. -/
def checkTerms (platform : String) (valid : List String) :
    List PolTerm → Except AclError Unit
  | [] => .ok ()
  | t :: rest =>
    if termSkipped platform t then checkTerms platform valid rest
    else if (offendingFields valid t).isEmpty then checkTerms platform valid rest
    else .error (.unsupportedFilterError t.name (offendingFields valid t))

/-- The construction-time validation of `ACLGenerator.__init__` over
`pol.filters`: each header is a platform list paired with its terms, and
only headers listing the target platform are validated. -/
def aclInitCheck (platform : String) :
    List (List String × List PolTerm) → Except AclError Unit
  | [] => .ok ()
  | (hplats, terms) :: rest =>
    if hplats.contains platform then
      match checkTerms platform VALID_KEYWORDS terms with
      | .ok _ => aclInitCheck platform rest
      | .error e => .error e
    else aclInitCheck platform rest

/-! ### Term name fitting (`ACLGenerator.FixTermLength`)

Python strings are modelled through their character lists: `pyLen` is
`len`, `pySlice` is `s[:n]`, and `pyReplace` is `re.sub` for the literal
patterns of the abbreviation table (replace every non-overlapping
occurrence, left to right). -/

/-- `len(s)`. -/
def pyLen (s : String) : Nat := s.data.length

/-- `s[:n]`. -/
def pySlice (s : String) (n : Nat) : String := String.mk (s.data.take n)

/-- Replace every non-overlapping occurrence of `pat` (nonempty) in the
subject, left to right; the fuel starts at the subject's length, which
bounds the recursion. -/
def listReplace (pat rep : List Char) : Nat → List Char → List Char
  | 0, l => l
  | _ + 1, [] => []
  | fuel + 1, c :: rest =>
    if pat.isPrefixOf (c :: rest) ∧ pat ≠ [] then
      rep ++ listReplace pat rep fuel ((c :: rest).drop pat.length)
    else c :: listReplace pat rep fuel rest

/-- `re.sub(word, abbrev, s)` for the literal, nonempty patterns used by
the abbreviation table. -/
def pyReplace (s word short : String) : String :=
  String.mk (listReplace word.data short.data s.data.length s.data)

/-- `ACLGenerator._ABBREVIATION_TABLE`. -/
def ABBREVIATION_TABLE : List (String × String) :=
  [("bogons", "BGN"), ("bogon", "BGN"), ("reserved", "RSV"),
   ("rfc1918", "PRV"), ("rfc-1918", "PRV"), ("internet", "EXT"),
   ("global", "GBL"), ("internal", "INT"), ("customer", "CUST"),
   ("google", "GOOG"), ("ballmer", "ASS"), ("microsoft", "LOL"),
   ("china", "BAN"), ("border", "BDR"), ("service", "SVC"),
   ("router", "RTR"), ("transit", "TRNS"), ("experiment", "EXP"),
   ("established", "EST"), ("unreachable", "UNR"), ("fragment", "FRG"),
   ("accept", "OK"), ("discard", "DSC"), ("reject", "REJ"),
   ("replies", "ACK"), ("request", "REQ")]

/-- `ACLGenerator._TERM_MAX_LENGTH`. -/
def TERM_MAX_LENGTH : Nat := 62

/-- The abbreviation loop of `FixTermLength`: before each substitution the
length is re-checked, and a fitting name returns from the whole function
(`Sum.inl`); otherwise the loop falls through with the fully substituted
name (`Sum.inr`). -/
def abbrevLoop : List (String × String) → String → Sum String String
  | [], newTerm => .inr newTerm
  | (word, short) :: rest, newTerm =>
    if pyLen newTerm ≤ TERM_MAX_LENGTH then .inl newTerm
    else abbrevLoop rest (pyReplace newTerm word short)

/-- The tail of `FixTermLength` after the abbreviation loop falls
through: optional truncation, the final length check, and the
`TermNameTooLongError` raise. -/
def truncateStep (origName : String) (truncate : Bool) (newTerm0 : String) :
    Except AclError String :=
  let newTerm := if truncate then pySlice newTerm0 TERM_MAX_LENGTH else newTerm0
  if pyLen newTerm ≤ TERM_MAX_LENGTH then .ok newTerm
  else .error (.termNameTooLongError newTerm origName TERM_MAX_LENGTH
    (pyLen newTerm))

/-- `ACLGenerator.FixTermLength`. -/
def FixTermLength (termName : String) (abbreviate truncate : Bool) :
    Except AclError String :=
  match (if abbreviate then abbrevLoop ABBREVIATION_TABLE termName
         else .inr termName) with
  | .inl fitted => .ok fitted
  | .inr newTerm => truncateStep termName truncate newTerm

/-- Modelled from the spec: the final steps of the §4.4 contract — truncate
if enabled, return if the result fits, otherwise fail with
TermNameTooLong reporting the attempted result, the original name, the
maximum, and the attempted length. -/
def specFinish (origName : String) (truncate : Bool) (t : String) :
    Except AclError String :=
  let t2 := if truncate then pySlice t TERM_MAX_LENGTH else t
  if pyLen t2 ≤ TERM_MAX_LENGTH then .ok t2
  else .error (.termNameTooLongError t2 origName TERM_MAX_LENGTH (pyLen t2))

/-- Modelled from the spec: the §4.4 abbreviation step — apply the table
entries in order, re-check the length after each single substitution and
return immediately as soon as the name fits; when the entries are
exhausted, fall through to truncation. -/
def specAbbrevStep (origName : String) (truncate : Bool) :
    List (String × String) → String → Except AclError String
  | [], t => specFinish origName truncate t
  | (word, short) :: rest, t =>
    let t2 := pyReplace t word short
    if pyLen t2 ≤ TERM_MAX_LENGTH then .ok t2
    else specAbbrevStep origName truncate rest t2

/-- Modelled from the spec: the whole §4.4 contract for FixTermLength — a
fitting input is returned unchanged whatever the flags; otherwise the
abbreviation step runs when enabled, then truncation and the final
check. -/
def FixTermLengthSpec (name : String) (abbreviate truncate : Bool) :
    Except AclError String :=
  if pyLen name ≤ TERM_MAX_LENGTH then .ok name
  else if abbreviate then specAbbrevStep name truncate ABBREVIATION_TABLE name
  else specFinish name truncate name

deriving instance DecidableEq for Except

/-! ### Theorems -/

theorem afNumbers_eq : AF_NUMBERS = [4, 6] := by decide

theorem afBlacklistHit_false (af : AFVal) (ps : List String) :
    afBlacklistHit af ps = false := by
  cases af <;> simp [afBlacklistHit, FILTER_BLACKLIST]

/-- C7: `NormalizeAddressFamily` returns a recognized numeric address
family (4 or 6) unchanged, maps the recognized symbolic names "inet",
"inet6" and "bridge" to 4, 6 and 4 respectively, and raises
UnsupportedAF on every other input. -/
theorem normalizeAddressFamily_spec (termName : String) :
    (∀ n : Nat, ((n = 4 ∨ n = 6) →
        NormalizeAddressFamily termName (.num n) = .ok n) ∧
      (n ≠ 4 → n ≠ 6 →
        NormalizeAddressFamily termName (.num n) =
          .error (.unsupportedAF termName))) ∧
    NormalizeAddressFamily termName (.name "inet") = .ok 4 ∧
    NormalizeAddressFamily termName (.name "inet6") = .ok 6 ∧
    NormalizeAddressFamily termName (.name "bridge") = .ok 4 ∧
    (∀ s : String, s ≠ "inet" → s ≠ "inet6" → s ≠ "bridge" →
      NormalizeAddressFamily termName (.name s) =
        .error (.unsupportedAF termName)) := by
  refine ⟨fun n => ⟨?_, ?_⟩, rfl, rfl, rfl, ?_⟩
  · rintro (rfl | rfl) <;> rfl
  · intro h4 h6
    simp [NormalizeAddressFamily, afNumbers_eq, List.contains, h4, h6]
  · intro s h1 h2 h3
    have e1 : (s == "inet") = false := beq_eq_false_iff_ne.mpr h1
    have e2 : (s == "inet6") = false := beq_eq_false_iff_ne.mpr h2
    have e3 : (s == "bridge") = false := beq_eq_false_iff_ne.mpr h3
    simp [NormalizeAddressFamily, AF_MAP, List.lookup, e1, e2, e3]

theorem normalizeAddressFamily_spec_witness :
    NormalizeAddressFamily "t" (.num 4) = .ok 4 ∧
    NormalizeAddressFamily "t" (.num 5) = .error (.unsupportedAF "t") ∧
    NormalizeAddressFamily "t" (.name "inet6") = .ok 6 ∧
    NormalizeAddressFamily "t" (.name "bogus") = .error (.unsupportedAF "t") :=
  ⟨((normalizeAddressFamily_spec "t").1 4).1 (Or.inl rfl),
   ((normalizeAddressFamily_spec "t").1 5).2 (by decide) (by decide),
   (normalizeAddressFamily_spec "t").2.2.1,
   (normalizeAddressFamily_spec "t").2.2.2.2 "bogus" (by decide) (by decide)
     (by decide)⟩

/-- C8: with an empty icmp-types list, `NormalizeIcmpTypes` returns the
one-element "no type" sentinel for every protocol list and every address
family, recognized or not: the empty-list test precedes all validation. -/
theorem normalizeIcmpTypes_empty (table : Nat → String → Option Nat)
    (termName : String) (protocols : List String) (af : AFVal) :
    NormalizeIcmpTypes table termName [] protocols af = .ok [none] := rfl

/-- C10: `FixHighPorts` accepts only the symbolic names of
`_SUPPORTED_AF`; a numeric address family (4 or 6), though accepted by
`NormalizeAddressFamily`, raises UnsupportedAF here because an integer is
never a member of the set of strings. -/
theorem fixHighPorts_numeric_af (term : PortTerm) (aps : Bool) :
    FixHighPorts term (.num 4) aps = .error (.unsupportedAF term.name) ∧
    FixHighPorts term (.num 6) aps = .error (.unsupportedAF term.name) :=
  ⟨rfl, rfl⟩

/-- C2: a successful `FixHighPorts` call never mutates the caller's term
object — its post-call contents equal the input — and when no option is
prefixed by "established" the function returns the original object
itself, with no copy allocated. -/
theorem fixHighPorts_no_mutation (term : PortTerm) (af : AFVal) (aps : Bool)
    (r : FixResult) (h : FixHighPorts term af aps = .ok r) :
    r.origAfter = term ∧
    ((∀ o ∈ term.option, ¬ "established".data.isPrefixOf o.data) →
      r = ⟨term, none, .orig⟩) := by
  simp only [FixHighPorts] at h
  split at h
  · exact absurd h (by simp)
  · split at h
    · exact absurd h (by simp)
    · split at h
      · rename_i hfind
        cases h
        exact ⟨rfl, fun _ => rfl⟩
      · rename_i opt hfind
        have hmem := List.mem_of_find?_eq_some hfind
        have hpre := List.find?_some hfind
        split at h
        · cases h
          refine ⟨rfl, fun hno => absurd (of_decide_eq_true ?_) (hno opt hmem)⟩
          simpa using hpre
        · split at h
          · exact absurd h (by simp)
          · cases h
            exact ⟨rfl, fun _ => rfl⟩

theorem fixHighPorts_no_mutation_witness :
    FixHighPorts ⟨"t1", ["tcp"], ["tcp-flags"], [(80, 80)]⟩ (.name "inet")
      false = .ok ⟨⟨"t1", ["tcp"], ["tcp-flags"], [(80, 80)]⟩, none, .orig⟩ ∧
    (⟨⟨"t1", ["tcp"], ["tcp-flags"], [(80, 80)]⟩, none,
      .orig⟩ : FixResult).origAfter = ⟨"t1", ["tcp"], ["tcp-flags"], [(80, 80)]⟩ :=
  ⟨by decide,
   (fixHighPorts_no_mutation ⟨"t1", ["tcp"], ["tcp-flags"], [(80, 80)]⟩
     (.name "inet") false _ (by decide)).1⟩

/-- C1: for a term with an option equal to or prefixed by "established"
and every effective protocol among tcp/udp, `FixHighPorts` leaves the
original object untouched and returns a freshly allocated deep copy whose
destination ports are the original ones with (1024, 65535) appended and
then collapsed; the scan stops at the first matching option, so the
result does not depend on the rest of the option list. -/
theorem fixHighPorts_established_highports (term : PortTerm) (af : AFVal)
    (aps : Bool) (haf : afInSupported af = true)
    (hopt : ∃ o ∈ term.option, "established".data.isPrefixOf o.data)
    (hsub : ∀ p ∈ effectiveProtocols term, p = "tcp" ∨ p = "udp") :
    FixHighPorts term af aps = .ok
      ⟨term,
       some { term with destination_port :=
         CollapsePortList (term.destination_port ++ [(1024, 65535)]) },
       .copy⟩ := by
  have hun : unstatefulProtocols term = [] := by
    have : (effectiveProtocols term).filter
        (fun p => !(p == "tcp" || p == "udp")) = [] := by
      rw [List.filter_eq_nil_iff]
      intro p hp
      rcases hsub p hp with rfl | rfl <;> decide
    unfold unstatefulProtocols
    rw [this]
    rfl
  obtain ⟨o, ho, hpre⟩ := hopt
  have hfind : (term.option.find?
      (fun opt => "established".data.isPrefixOf opt.data)).isSome := by
    rw [List.find?_isSome]
    exact ⟨o, ho, hpre⟩
  simp only [FixHighPorts, haf, afBlacklistHit_false]
  cases heq : term.option.find? (fun opt => "established".data.isPrefixOf opt.data) with
  | none => rw [heq] at hfind; simp at hfind
  | some o2 => simp [heq, hun]

theorem fixHighPorts_established_highports_witness :
    FixHighPorts ⟨"t2", ["tcp"], ["established"], [(80, 80)]⟩ (.name "inet")
      false = .ok ⟨⟨"t2", ["tcp"], ["established"], [(80, 80)]⟩,
        some ⟨"t2", ["tcp"], ["established"], [(80, 80), (1024, 65535)]⟩,
        .copy⟩ := by
  have h := fixHighPorts_established_highports
    ⟨"t2", ["tcp"], ["established"], [(80, 80)]⟩ (.name "inet") false
    (by decide) ⟨"established", by decide, by decide⟩ (by decide)
  rw [h]; rfl

/-- C4: an "established"-like option combined with an effective protocol
outside tcp/udp raises EstablishedError naming the offending protocols
and the term when the generator is not all-protocols-stateful, and
returns the term unmodified (no copy, no high ports) when it is. -/
theorem fixHighPorts_established_bad_protocols (term : PortTerm) (af : AFVal)
    (haf : afInSupported af = true)
    (hopt : ∃ o ∈ term.option, "established".data.isPrefixOf o.data)
    (hbad : unstatefulProtocols term ≠ []) :
    FixHighPorts term af false =
      .error (.establishedError (unstatefulProtocols term) term.name) ∧
    FixHighPorts term af true = .ok ⟨term, none, .orig⟩ := by
  obtain ⟨o, ho, hpre⟩ := hopt
  have hfind : (term.option.find?
      (fun opt => "established".data.isPrefixOf opt.data)).isSome := by
    rw [List.find?_isSome]
    exact ⟨o, ho, hpre⟩
  have hne : (unstatefulProtocols term).isEmpty = false := by
    cases hu : unstatefulProtocols term with
    | nil => exact absurd hu hbad
    | cons a l => rfl
  constructor <;>
  · simp only [FixHighPorts, haf, afBlacklistHit_false]
    cases heq : term.option.find?
        (fun opt => "established".data.isPrefixOf opt.data) with
    | none => rw [heq] at hfind; simp at hfind
    | some o2 => simp [heq, hne]

theorem fixHighPorts_established_bad_protocols_witness :
    FixHighPorts ⟨"t3", ["icmp"], ["established"], []⟩ (.name "inet")
      false = .error (.establishedError ["icmp"] "t3") ∧
    FixHighPorts ⟨"t3", ["icmp"], ["established"], []⟩ (.name "inet")
      true = .ok ⟨⟨"t3", ["icmp"], ["established"], []⟩, none, .orig⟩ := by
  have h := fixHighPorts_established_bad_protocols
    ⟨"t3", ["icmp"], ["established"], []⟩ (.name "inet")
    (by decide) ⟨"established", by decide, by decide⟩ (by decide)
  exact ⟨h.1, h.2⟩

theorem aclInitCheck_cons (platform : String) (hplats : List String)
    (terms : List PolTerm) (rest : List (List String × List PolTerm)) :
    aclInitCheck platform ((hplats, terms) :: rest) =
      if hplats.contains platform then
        match checkTerms platform VALID_KEYWORDS terms with
        | .ok _ => aclInitCheck platform rest
        | .error e => .error e
      else aclInitCheck platform rest := rfl

/-- C6: construction-time keyword validation — a term gated off the
target platform (non-empty allow-list excluding it, or exclude-list
including it) is invisible to validation even if it has invalid fields;
a non-skipped term with populated unrecognized fields fails construction
with an error carrying the complete offending field list; and
construction succeeds exactly when every header listing the target
platform validates all its terms. -/
theorem keyword_validation_spec :
    (∀ (platform : String) (valid : List String) (pre post : List PolTerm)
        (t : PolTerm), termSkipped platform t = true →
      checkTerms platform valid (pre ++ t :: post) =
        checkTerms platform valid (pre ++ post)) ∧
    (∀ (platform : String) (valid : List String) (t : PolTerm)
        (rest : List PolTerm), termSkipped platform t = false →
      offendingFields valid t ≠ [] →
      checkTerms platform valid (t :: rest) =
        .error (.unsupportedFilterError t.name (offendingFields valid t))) ∧
    (∀ (platform : String) (filters : List (List String × List PolTerm)),
      aclInitCheck platform filters = .ok () ↔
      ∀ hf ∈ filters, hf.1.contains platform = true →
        checkTerms platform VALID_KEYWORDS hf.2 = .ok ()) := by
  refine ⟨?_, ?_, ?_⟩
  · intro platform valid pre post t hskip
    induction pre with
    | nil => simp [checkTerms, hskip]
    | cons q pre ih =>
      simp only [List.cons_append, checkTerms, List.append_eq]
      rw [ih]
  · intro platform valid t rest hskip hoff
    have hne : (offendingFields valid t).isEmpty = false :=
      List.isEmpty_eq_false.mpr hoff
    simp [checkTerms, hskip, hne]
  · intro platform filters
    induction filters with
    | nil => simp [aclInitCheck]
    | cons hf rest ih =>
      obtain ⟨hplats, terms⟩ := hf
      rw [aclInitCheck_cons]
      by_cases hc : hplats.contains platform = true
      · rw [if_pos hc]
        cases hck : checkTerms platform VALID_KEYWORDS terms with
        | ok u =>
          cases u
          constructor
          · intro hok hf2 hmem hcont
            rcases List.mem_cons.mp hmem with rfl | hmem2
            · exact hck
            · exact (ih.mp hok) hf2 hmem2 hcont
          · intro hall
            exact ih.mpr (fun hf2 hmem2 hcont =>
              hall hf2 (List.mem_cons_of_mem _ hmem2) hcont)
        | error e =>
          constructor
          · intro hbad
            exact absurd hbad (by simp)
          · intro hall
            have hco := hall (hplats, terms) (List.mem_cons_self _ _) hc
            rw [hck] at hco
            exact absurd hco (by simp)
      · rw [if_neg hc, ih]
        constructor
        · intro hall hf2 hmem hcont
          rcases List.mem_cons.mp hmem with rfl | hmem2
          · exact absurd hcont hc
          · exact hall hf2 hmem2 hcont
        · intro hall hf2 hmem2 hcont
          exact hall hf2 (List.mem_cons_of_mem _ hmem2) hcont

theorem keyword_validation_spec_witness :
    checkTerms "cisco" VALID_KEYWORDS
      [⟨"gated", ["juniper"], [], [("weird_field", true)]⟩] =
      checkTerms "cisco" VALID_KEYWORDS [] ∧
    checkTerms "cisco" VALID_KEYWORDS
      [⟨"bad", [], [], [("action", true), ("weird_field", true),
        ("other_field", true), ("comment", false)]⟩] =
      .error (.unsupportedFilterError "bad" ["weird_field", "other_field"]) ∧
    (aclInitCheck "cisco" [(["cisco"],
      [⟨"ok", [], [], [("action", true)]⟩])] = .ok () ↔
      ∀ hf ∈ [((["cisco"] : List String),
          [(⟨"ok", [], [], [("action", true)]⟩ : PolTerm)])],
        hf.1.contains "cisco" = true →
        checkTerms "cisco" VALID_KEYWORDS hf.2 = .ok ()) := by
  refine ⟨keyword_validation_spec.1 "cisco" VALID_KEYWORDS [] []
    ⟨"gated", ["juniper"], [], [("weird_field", true)]⟩ (by decide), ?_, ?_⟩
  · have h := keyword_validation_spec.2.1 "cisco" VALID_KEYWORDS
      ⟨"bad", [], [], [("action", true), ("weird_field", true),
        ("other_field", true), ("comment", false)]⟩ [] (by decide) (by decide)
    rw [h]
    rfl
  · exact keyword_validation_spec.2.2 "cisco" [(["cisco"],
      [⟨"ok", [], [], [("action", true)]⟩])]

/-! ### FixTermLength refines the spec's §4.4 contract -/

theorem pySlice_of_le (s : String) (n : Nat) (h : pyLen s ≤ n) :
    pySlice s n = s := by
  cases s with
  | mk data =>
    simp only [pySlice, pyLen] at *
    rw [List.take_of_length_le h]

theorem truncateStep_eq_specFinish (o : String) (tr : Bool) (t : String) :
    truncateStep o tr t = specFinish o tr t := rfl

theorem abbrevFitsOut (o : String) (tr : Bool) (tbl : List (String × String))
    (t : String) (h : pyLen t ≤ TERM_MAX_LENGTH) :
    (match abbrevLoop tbl t with
     | .inl f => Except.ok f
     | .inr m => truncateStep o tr m) = .ok t := by
  cases tbl with
  | nil =>
    show truncateStep o tr t = .ok t
    unfold truncateStep
    cases tr
    · simp [h]
    · simp [pySlice_of_le t TERM_MAX_LENGTH h, h]
  | cons e rest =>
    obtain ⟨w, s⟩ := e
    show (match (if pyLen t ≤ TERM_MAX_LENGTH then Sum.inl t
        else abbrevLoop rest (pyReplace t w s)) with
      | .inl f => Except.ok f
      | .inr m => truncateStep o tr m) = .ok t
    rw [if_pos h]

theorem abbrevLoop_eq_spec (o : String) (tr : Bool) :
    ∀ (tbl : List (String × String)) (t : String),
      TERM_MAX_LENGTH < pyLen t →
      (match abbrevLoop tbl t with
       | .inl f => Except.ok f
       | .inr m => truncateStep o tr m) = specAbbrevStep o tr tbl t := by
  intro tbl
  induction tbl with
  | nil =>
    intro t ht
    show truncateStep o tr t = specFinish o tr t
    exact truncateStep_eq_specFinish o tr t
  | cons e rest ih =>
    intro t ht
    obtain ⟨word, short⟩ := e
    have hnot : ¬ pyLen t ≤ TERM_MAX_LENGTH := Nat.not_le.mpr ht
    show (match (if pyLen t ≤ TERM_MAX_LENGTH then Sum.inl t
        else abbrevLoop rest (pyReplace t word short)) with
      | .inl f => Except.ok f
      | .inr m => truncateStep o tr m) =
      (if pyLen (pyReplace t word short) ≤ TERM_MAX_LENGTH then
        Except.ok (pyReplace t word short)
       else specAbbrevStep o tr rest (pyReplace t word short))
    rw [if_neg hnot]
    by_cases h2 : pyLen (pyReplace t word short) ≤ TERM_MAX_LENGTH
    · rw [if_pos h2]
      exact abbrevFitsOut o tr rest _ h2
    · rw [if_neg h2]
      exact ih _ (Nat.not_le.mp h2)

/-- C5: `FixTermLength` implements the spec's §4.4 contract exactly: a
fitting name is returned unchanged under all four flag combinations; an
over-length name is abbreviated by the table entries in order (each
replacing every occurrence) with an immediate return as soon as it fits,
then truncated to the maximum-length prefix when enabled, and
TermNameTooLong is raised when the enabled steps leave it over-length. -/
theorem fixTermLength_refines_spec (name : String) (abb tr : Bool) :
    FixTermLength name abb tr = FixTermLengthSpec name abb tr := by
  by_cases hfit : pyLen name ≤ TERM_MAX_LENGTH
  · rw [FixTermLengthSpec, if_pos hfit]
    cases abb
    · show truncateStep name tr name = .ok name
      have h := abbrevFitsOut name tr [] name hfit
      exact h
    · exact abbrevFitsOut name tr ABBREVIATION_TABLE name hfit
  · rw [FixTermLengthSpec, if_neg hfit]
    have ht := Nat.not_le.mp hfit
    cases tr <;> cases abb
    · exact truncateStep_eq_specFinish name false name
    · exact abbrevLoop_eq_spec name false ABBREVIATION_TABLE name ht
    · exact truncateStep_eq_specFinish name true name
    · exact abbrevLoop_eq_spec name true ABBREVIATION_TABLE name ht

/-! ### NormalizeIcmpTypes on non-empty input -/

theorem lookupIcmpCodes_ok (table : Nat → String → Option Nat)
    (termName : String) (afn : Nat) :
    ∀ ts : List String, (∀ t ∈ ts, (table afn t).isSome) →
      lookupIcmpCodes table termName afn ts = .ok (ts.filterMap (table afn)) := by
  intro ts
  induction ts with
  | nil => intro _; rfl
  | cons t ts ih =>
    intro h
    obtain ⟨c, hc⟩ := Option.isSome_iff_exists.mp (h t (List.mem_cons_self t ts))
    rw [List.filterMap_cons]
    simp only [lookupIcmpCodes, hc]
    rw [ih (fun x hx => h x (List.mem_cons_of_mem _ hx))]

theorem lookupIcmpCodes_err (table : Nat → String → Option Nat)
    (termName : String) (afn : Nat) :
    ∀ ts : List String, (∃ t ∈ ts, table afn t = none) →
      ∃ t ∈ ts, table afn t = none ∧
        lookupIcmpCodes table termName afn ts =
          .error (.unknownIcmpTypeError t termName) := by
  intro ts
  induction ts with
  | nil => rintro ⟨t, ht, _⟩; cases ht
  | cons t ts ih =>
    intro h
    cases hc : table afn t with
    | none =>
      exact ⟨t, List.mem_cons_self t ts, hc, by simp [lookupIcmpCodes, hc]⟩
    | some c =>
      obtain ⟨u, hu, hn⟩ := h
      rcases List.mem_cons.mp hu with rfl | hu2
      · rw [hc] at hn; cases hn
      · obtain ⟨v, hv, hvn, heq⟩ := ih ⟨u, hu2, hn⟩
        refine ⟨v, List.mem_cons_of_mem _ hv, hvn, ?_⟩
        simp [lookupIcmpCodes, hc, heq]

/-- C3: with a non-empty icmp-types list, `NormalizeIcmpTypes` fails with
UnsupportedFilterError unless the protocol list is exactly ["icmp"] or
exactly ["icmpv6"]; it fails with MismatchIcmpInetError whenever the
normalized address family contradicts the protocol; it fails with
UnknownIcmpTypeError on a name with no table entry for the resolved
family; and on success it returns exactly the codes of the given names in
ascending order. -/
theorem normalizeIcmpTypes_spec (table : Nat → String → Option Nat)
    (termName : String) (icmp_types protocols : List String) (af : AFVal)
    (hne : icmp_types ≠ []) :
    (protocols ≠ ["icmp"] → protocols ≠ ["icmpv6"] →
      NormalizeIcmpTypes table termName icmp_types protocols af =
        .error (.unsupportedFilterError termName [])) ∧
    (∀ afn : Nat, NormalizeAddressFamily termName af = .ok afn →
      (((protocols = ["icmp"] ∧ afn ≠ 4) ∨ (protocols = ["icmpv6"] ∧ afn ≠ 6)) →
        NormalizeIcmpTypes table termName icmp_types protocols af =
          .error (.mismatchIcmpInetError termName)) ∧
      (((protocols = ["icmp"] ∧ afn = 4) ∨ (protocols = ["icmpv6"] ∧ afn = 6)) →
        ((∀ t ∈ icmp_types, (table afn t).isSome) →
          NormalizeIcmpTypes table termName icmp_types protocols af =
            .ok (((icmp_types.filterMap (table afn)).insertionSort
              (· ≤ ·)).map some) ∧
          ((icmp_types.filterMap (table afn)).insertionSort
            (· ≤ ·)).Sorted (· ≤ ·) ∧
          List.Perm ((icmp_types.filterMap (table afn)).insertionSort (· ≤ ·))
            (icmp_types.filterMap (table afn))) ∧
        ((∃ t ∈ icmp_types, table afn t = none) →
          ∃ t ∈ icmp_types, table afn t = none ∧
            NormalizeIcmpTypes table termName icmp_types protocols af =
              .error (.unknownIcmpTypeError t termName)))) := by
  have hemp : icmp_types.isEmpty = false := List.isEmpty_eq_false.mpr hne
  refine ⟨?_, ?_⟩
  · intro h1 h2
    simp [NormalizeIcmpTypes, hemp, h1, h2]
  · intro afn hafn
    refine ⟨?_, ?_⟩
    · rintro (⟨rfl, h4⟩ | ⟨rfl, h6⟩)
      · simp [NormalizeIcmpTypes, hemp, hafn, h4]
      · simp [NormalizeIcmpTypes, hemp, hafn, h6]
    · rintro (⟨rfl, rfl⟩ | ⟨rfl, rfl⟩) <;>
        refine ⟨fun hall => ⟨?_, List.sorted_insertionSort _ _,
          List.perm_insertionSort _ _⟩, fun hex => ?_⟩
      · simp [NormalizeIcmpTypes, hemp, hafn,
          lookupIcmpCodes_ok table termName 4 icmp_types hall]
      · obtain ⟨v, hv, hvn, heq⟩ :=
          lookupIcmpCodes_err table termName 4 icmp_types hex
        exact ⟨v, hv, hvn, by simp [NormalizeIcmpTypes, hemp, hafn, heq]⟩
      · simp [NormalizeIcmpTypes, hemp, hafn,
          lookupIcmpCodes_ok table termName 6 icmp_types hall]
      · obtain ⟨v, hv, hvn, heq⟩ :=
          lookupIcmpCodes_err table termName 6 icmp_types hex
        exact ⟨v, hv, hvn, by simp [NormalizeIcmpTypes, hemp, hafn, heq]⟩

/-- A concrete one-entry ICMP type table for evaluation. -/
def icmpTable0 : Nat → String → Option Nat :=
  fun afn t => if afn = 4 ∧ t = "echo-reply" then some 0 else none

theorem normalizeIcmpTypes_spec_witness :
    NormalizeIcmpTypes icmpTable0 "t" ["echo-reply"] ["icmp"] (.name "inet") =
      .ok [some 0] ∧
    NormalizeIcmpTypes icmpTable0 "t" ["echo-reply"] ["tcp"] (.name "inet") =
      .error (.unsupportedFilterError "t" []) ∧
    NormalizeIcmpTypes icmpTable0 "t" ["echo-reply"] ["icmp"] (.name "inet6") =
      .error (.mismatchIcmpInetError "t") ∧
    NormalizeIcmpTypes icmpTable0 "t" ["bogus"] ["icmp"] (.name "inet") =
      .error (.unknownIcmpTypeError "bogus" "t") := by
  refine ⟨?_, ?_, ?_, ?_⟩
  · have h := (((normalizeIcmpTypes_spec icmpTable0 "t" ["echo-reply"] ["icmp"]
      (.name "inet") (by decide)).2 4 rfl).2 (Or.inl ⟨rfl, rfl⟩)).1
      (by decide)
    exact h.1.trans (by decide)
  · exact (normalizeIcmpTypes_spec icmpTable0 "t" ["echo-reply"] ["tcp"]
      (.name "inet") (by decide)).1 (by decide) (by decide)
  · exact ((normalizeIcmpTypes_spec icmpTable0 "t" ["echo-reply"] ["icmp"]
      (.name "inet6") (by decide)).2 6 rfl).1 (Or.inl ⟨rfl, by decide⟩)
  · have h := (((normalizeIcmpTypes_spec icmpTable0 "t" ["bogus"] ["icmp"]
      (.name "inet") (by decide)).2 4 rfl).2 (Or.inl ⟨rfl, rfl⟩)).2
      ⟨"bogus", by decide, by decide⟩
    obtain ⟨v, hv, hvn, heq⟩ := h
    rcases List.mem_singleton.mp hv with rfl
    exact heq

/-! ### The collapse normal form: idempotence, coverage, uniqueness -/

theorem covered_cons (p : Nat × Nat) (l : List (Nat × Nat)) (n : Nat) :
    covered (p :: l) n ↔ (p.1 ≤ n ∧ n ≤ p.2) ∨ covered l n := by
  constructor
  · rintro ⟨q, hq, h1, h2⟩
    rcases List.mem_cons.mp hq with rfl | hq2
    · exact Or.inl ⟨h1, h2⟩
    · exact Or.inr ⟨q, hq2, h1, h2⟩
  · rintro (⟨h1, h2⟩ | ⟨q, hq, h1, h2⟩)
    · exact ⟨p, List.mem_cons_self _ _, h1, h2⟩
    · exact ⟨q, List.mem_cons_of_mem _ hq, h1, h2⟩

theorem covered_perm {l1 l2 : List (Nat × Nat)} (h : List.Perm l1 l2)
    (n : Nat) : covered l1 n ↔ covered l2 n := by
  unfold covered
  constructor <;> rintro ⟨q, hq, h1, h2⟩
  · exact ⟨q, h.mem_iff.mp hq, h1, h2⟩
  · exact ⟨q, h.mem_iff.mpr hq, h1, h2⟩

theorem mergeRun_head (cur : Nat × Nat) (l : List (Nat × Nat)) :
    ∃ hi rest2, mergeRun cur l = (cur.1, hi) :: rest2 ∧ cur.2 ≤ hi := by
  induction l generalizing cur with
  | nil => exact ⟨cur.2, [], rfl, le_refl _⟩
  | cons q rest ih =>
    by_cases h : q.1 ≤ cur.2 + 1
    · obtain ⟨hi, r2, heq, hle⟩ := ih (cur.1, max cur.2 q.2)
      refine ⟨hi, r2, ?_, le_trans (le_max_left _ _) hle⟩
      rw [mergeRun, if_pos h]
      exact heq
    · exact ⟨cur.2, mergeRun q rest, by rw [mergeRun, if_neg h], le_refl _⟩

theorem mergeRun_canonical (l : List (Nat × Nat)) :
    ∀ cur : Nat × Nat, List.Sorted portLowerLe (cur :: l) →
      (∀ p ∈ cur :: l, p.1 ≤ p.2) → Canonical (mergeRun cur l) := by
  induction l with
  | nil =>
    intro cur _ hv
    refine ⟨?_, List.chain'_singleton _⟩
    intro p hp
    rcases List.mem_singleton.mp hp with rfl
    exact hv p (List.mem_cons_self _ _)
  | cons q rest ih =>
    intro cur hs hv
    rw [List.sorted_cons] at hs
    obtain ⟨hcur_le, hs2⟩ := hs
    by_cases h : q.1 ≤ cur.2 + 1
    · rw [mergeRun, if_pos h]
      apply ih (cur.1, max cur.2 q.2)
      · rw [List.sorted_cons] at hs2 ⊢
        exact ⟨fun b hb =>
          le_trans (hcur_le q (List.mem_cons_self _ _)) (hs2.1 b hb), hs2.2⟩
      · intro p hp
        rcases List.mem_cons.mp hp with rfl | hp2
        · exact le_trans (hv cur (List.mem_cons_self _ _)) (le_max_left _ _)
        · exact hv p (List.mem_cons_of_mem _ (List.mem_cons_of_mem _ hp2))
    · rw [mergeRun, if_neg h]
      have hcan := ih q hs2 (fun p hp => hv p (List.mem_cons_of_mem _ hp))
      obtain ⟨hi, r2, heq, hle⟩ := mergeRun_head q rest
      refine ⟨?_, ?_⟩
      · intro p hp
        rcases List.mem_cons.mp hp with rfl | hp2
        · exact hv p (List.mem_cons_self _ _)
        · exact hcan.1 p hp2
      · rw [List.chain'_cons']
        refine ⟨?_, hcan.2⟩
        intro y hy
        rw [heq] at hy
        simp only [List.head?_cons, Option.mem_def, Option.some.injEq] at hy
        subst hy
        exact Nat.not_le.mp h

theorem mergeRun_covered (l : List (Nat × Nat)) :
    ∀ cur : Nat × Nat, List.Sorted portLowerLe (cur :: l) →
      ∀ n, (covered (mergeRun cur l) n ↔ covered (cur :: l) n) := by
  induction l with
  | nil => intro cur _ n; exact Iff.rfl
  | cons q rest ih =>
    intro cur hs n
    rw [List.sorted_cons] at hs
    obtain ⟨hcur_le, hs2⟩ := hs
    by_cases h : q.1 ≤ cur.2 + 1
    · rw [mergeRun, if_pos h]
      have hsorted2 : List.Sorted portLowerLe ((cur.1, max cur.2 q.2) :: rest) := by
        rw [List.sorted_cons] at hs2 ⊢
        exact ⟨fun b hb =>
          le_trans (hcur_le q (List.mem_cons_self _ _)) (hs2.1 b hb), hs2.2⟩
      rw [ih (cur.1, max cur.2 q.2) hsorted2 n,
        covered_cons, covered_cons, covered_cons]
      constructor
      · rintro (⟨h1, h2⟩ | hr)
        · by_cases hn : n ≤ cur.2
          · exact Or.inl ⟨h1, hn⟩
          · have hn2 : n ≤ q.2 := by
              rcases le_max_iff.mp h2 with ha | hb
              · exact absurd ha hn
              · exact hb
            have hq1 : q.1 ≤ n := by omega
            exact Or.inr (Or.inl ⟨hq1, hn2⟩)
        · exact Or.inr (Or.inr hr)
      · rintro (⟨h1, h2⟩ | ⟨h1, h2⟩ | hr)
        · exact Or.inl ⟨h1, le_trans h2 (le_max_left _ _)⟩
        · exact Or.inl ⟨le_trans (hcur_le q (List.mem_cons_self _ _)) h1,
            le_trans h2 (le_max_right _ _)⟩
        · exact Or.inr hr
    · rw [mergeRun, if_neg h, covered_cons, ih q hs2 n, ← covered_cons]

theorem mergeRun_eq_self (l : List (Nat × Nat)) :
    ∀ cur, List.Chain' (fun p q => p.2 + 1 < q.1) (cur :: l) →
      mergeRun cur l = cur :: l := by
  induction l with
  | nil => intro cur _; rfl
  | cons q rest ih =>
    intro cur hc
    rw [List.chain'_cons] at hc
    have h : ¬ q.1 ≤ cur.2 + 1 := Nat.not_le.mpr hc.1
    rw [mergeRun, if_neg h, ih q hc.2]

theorem canonical_tail {p : Nat × Nat} {l : List (Nat × Nat)}
    (h : Canonical (p :: l)) : Canonical l :=
  ⟨fun q hq => h.1 q (List.mem_cons_of_mem _ hq), h.2.tail⟩

theorem canonical_rest_lt {p : Nat × Nat} {l : List (Nat × Nat)}
    (h : Canonical (p :: l)) : ∀ q ∈ l, p.2 + 1 < q.1 := by
  induction l generalizing p with
  | nil => intro q hq; cases hq
  | cons q rest ih =>
    intro r hr
    have hpq : p.2 + 1 < q.1 := (List.chain'_cons.mp h.2).1
    rcases List.mem_cons.mp hr with rfl | hr2
    · exact hpq
    · have hrest := ih (canonical_tail h) r hr2
      have hqv : q.1 ≤ q.2 :=
        h.1 q (List.mem_cons_of_mem _ (List.mem_cons_self _ _))
      omega

theorem canonical_sorted {l : List (Nat × Nat)} (h : Canonical l) :
    List.Sorted portLowerLe l := by
  induction l with
  | nil => exact List.sorted_nil
  | cons p rest ih =>
    rw [List.sorted_cons]
    refine ⟨?_, ih (canonical_tail h)⟩
    intro b hb
    have hlt := canonical_rest_lt h b hb
    have hv := h.1 p (List.mem_cons_self _ _)
    show p.1 ≤ b.1
    omega

theorem canonical_covered_lb {p : Nat × Nat} {l : List (Nat × Nat)}
    (h : Canonical (p :: l)) {n : Nat} (hc : covered (p :: l) n) :
    p.1 ≤ n := by
  rcases (covered_cons p l n).mp hc with ⟨h1, _⟩ | ⟨q, hq, h1, h2⟩
  · exact h1
  · have hlt := canonical_rest_lt h q hq
    have hv := h.1 p (List.mem_cons_self _ _)
    omega

theorem canonical_not_covered_gap {p : Nat × Nat} {l : List (Nat × Nat)}
    (h : Canonical (p :: l)) : ¬ covered (p :: l) (p.2 + 1) := by
  intro hc
  rcases (covered_cons p l _).mp hc with ⟨_, h2⟩ | ⟨q, hq, h1, h2⟩
  · omega
  · have hlt := canonical_rest_lt h q hq
    omega

theorem canonical_covered_tail {p : Nat × Nat} {l : List (Nat × Nat)}
    (h : Canonical (p :: l)) (n : Nat) :
    covered l n ↔ covered (p :: l) n ∧ p.2 < n := by
  constructor
  · rintro ⟨q, hq, h1, h2⟩
    have hlt := canonical_rest_lt h q hq
    exact ⟨⟨q, List.mem_cons_of_mem _ hq, h1, h2⟩, by omega⟩
  · rintro ⟨hc, hn⟩
    rcases (covered_cons p l n).mp hc with ⟨h1, h2⟩ | hr
    · omega
    · exact hr

theorem canonical_unique : ∀ m m2 : List (Nat × Nat), Canonical m →
    Canonical m2 → (∀ n, covered m n ↔ covered m2 n) → m = m2 := by
  intro m
  induction m with
  | nil =>
    intro m2 _ h2 hcov
    cases m2 with
    | nil => rfl
    | cons p r =>
      have hcp : covered (p :: r) p.1 := (covered_cons p r p.1).mpr
        (Or.inl ⟨le_refl _, h2.1 p (List.mem_cons_self _ _)⟩)
      rcases (hcov p.1).mpr hcp with ⟨q, hq, _⟩
      cases hq
  | cons p r ih =>
    intro m2 h1 h2 hcov
    cases m2 with
    | nil =>
      have hcp : covered (p :: r) p.1 := (covered_cons p r p.1).mpr
        (Or.inl ⟨le_refl _, h1.1 p (List.mem_cons_self _ _)⟩)
      rcases (hcov p.1).mp hcp with ⟨q, hq, _⟩
      cases hq
    | cons p2 r2 =>
      have hcp : covered (p :: r) p.1 := (covered_cons p r p.1).mpr
        (Or.inl ⟨le_refl _, h1.1 p (List.mem_cons_self _ _)⟩)
      have hcp2 : covered (p2 :: r2) p2.1 := (covered_cons p2 r2 p2.1).mpr
        (Or.inl ⟨le_refl _, h2.1 p2 (List.mem_cons_self _ _)⟩)
      have e1 : p.1 = p2.1 :=
        le_antisymm (canonical_covered_lb h1 ((hcov p2.1).mpr hcp2))
          (canonical_covered_lb h2 ((hcov p.1).mp hcp))
      have e2 : p.2 = p2.2 := by
        by_contra hne
        rcases Nat.lt_or_ge p.2 p2.2 with hlt | hge
        · have hv : p.1 ≤ p.2 := h1.1 p (List.mem_cons_self _ _)
          have hcg : covered (p2 :: r2) (p.2 + 1) :=
            (covered_cons _ _ _).mpr (Or.inl ⟨by omega, by omega⟩)
          exact canonical_not_covered_gap h1 ((hcov _).mpr hcg)
        · rcases Nat.lt_or_ge p2.2 p.2 with hlt2 | hge2
          · have hv2 : p2.1 ≤ p2.2 := h2.1 p2 (List.mem_cons_self _ _)
            have hcg : covered (p :: r) (p2.2 + 1) :=
              (covered_cons _ _ _).mpr (Or.inl ⟨by omega, by omega⟩)
            exact canonical_not_covered_gap h2 ((hcov _).mp hcg)
          · omega
      have etails : r = r2 := by
        apply ih r2 (canonical_tail h1) (canonical_tail h2)
        intro n
        rw [canonical_covered_tail h1 n, canonical_covered_tail h2 n,
          hcov n, e2]
      rw [Prod.ext e1 e2, etails]

theorem collapsePortList_canonical {l : List (Nat × Nat)}
    (hv : ∀ p ∈ l, p.1 ≤ p.2) : Canonical (CollapsePortList l) := by
  unfold CollapsePortList
  cases heq : l.insertionSort portLowerLe with
  | nil => exact ⟨fun p hp => absurd hp (List.not_mem_nil p), List.chain'_nil⟩
  | cons p rest =>
    have hsorted : List.Sorted portLowerLe (p :: rest) := by
      rw [← heq]
      exact List.sorted_insertionSort portLowerLe l
    have hval : ∀ q ∈ p :: rest, q.1 ≤ q.2 := by
      intro q hq
      apply hv
      have hq2 : q ∈ l.insertionSort portLowerLe := heq ▸ hq
      exact ((List.perm_insertionSort portLowerLe l).mem_iff).mp hq2
    exact mergeRun_canonical rest p hsorted hval

theorem collapsePortList_covered {l : List (Nat × Nat)} (n : Nat) :
    covered (CollapsePortList l) n ↔ covered l n := by
  unfold CollapsePortList
  have hperm := List.perm_insertionSort portLowerLe l
  cases heq : l.insertionSort portLowerLe with
  | nil =>
    rw [heq] at hperm
    have hl : l = [] := hperm.symm.eq_nil
    rw [hl]
  | cons p rest =>
    rw [heq] at hperm
    have hsorted : List.Sorted portLowerLe (p :: rest) := by
      rw [← heq]
      exact List.sorted_insertionSort portLowerLe l
    show covered (mergeRun p rest) n ↔ covered l n
    rw [mergeRun_covered rest p hsorted n]
    exact covered_perm hperm n

theorem collapsePortList_eq_self {m : List (Nat × Nat)} (h : Canonical m) :
    CollapsePortList m = m := by
  unfold CollapsePortList
  rw [List.Sorted.insertionSort_eq (canonical_sorted h)]
  cases m with
  | nil => rfl
  | cons p rest => exact mergeRun_eq_self rest p h.2

/-- C9: collapsing a port list of valid closed intervals is idempotent,
and its result is the unique minimal normal form: a sorted list of
nonempty, pairwise disjoint, non-adjacent intervals covering exactly the
integers the input covers — any list in that normal form with the same
coverage is equal to it. -/
theorem collapsePortList_idempotent_minimal (l : List (Nat × Nat))
    (hv : ∀ p ∈ l, p.1 ≤ p.2) :
    CollapsePortList (CollapsePortList l) = CollapsePortList l ∧
    Canonical (CollapsePortList l) ∧
    (∀ n, covered (CollapsePortList l) n ↔ covered l n) ∧
    (∀ m, Canonical m → (∀ n, covered m n ↔ covered l n) →
      m = CollapsePortList l) := by
  have hcan := collapsePortList_canonical hv
  refine ⟨collapsePortList_eq_self hcan, hcan,
    fun n => collapsePortList_covered n, ?_⟩
  intro m hm hcov
  exact canonical_unique m (CollapsePortList l) hm hcan
    (fun n => (hcov n).trans (collapsePortList_covered n).symm)

theorem collapsePortList_idempotent_minimal_witness :
    CollapsePortList (CollapsePortList [(1023, 1030), (1024, 65535)]) =
      CollapsePortList [(1023, 1030), (1024, 65535)] ∧
    CollapsePortList [(1023, 1030), (1024, 65535)] = [(1023, 65535)] ∧
    Canonical (CollapsePortList [(1023, 1030), (1024, 65535)]) ∧
    (covered (CollapsePortList [(1023, 1030), (1024, 65535)]) 2000 ↔
      covered [(1023, 1030), (1024, 65535)] 2000) := by
  have h := collapsePortList_idempotent_minimal [(1023, 1030), (1024, 65535)]
    (by decide)
  exact ⟨h.1, by decide, h.2.1, h.2.2.1 2000⟩

end Capirca
